import Mathlib

/-!
Shallow embedding of `src/crypto_alert_bot.py` (the crypto long-entry alert
bot): the per-user target-level registry, the `/add`, `/remove` and `/list`
command handlers, the monitor tick `check_all_levels`, and the
`price_monitoring_loop` retry policy.  Python floats are modelled as
rationals (adequate for the order comparisons the bot performs), Python
`dict`s as insertion-ordered association lists, and the Binance price feed
and Telegram delivery as oracle functions supplied to each operation.
-/

/-- Prices: Python floats modelled as rationals. -/
abbrev Price := ℚ

/-- The `TargetLevel` dataclass (source lines 17-25): one pending alert
condition.  `created_at` is the creation timestamp, modelled as a `Nat`
clock value supplied by the caller. -/
structure TargetLevel where
  symbol : String
  target_price : Price
  created_at : Nat
deriving DecidableEq

/-- A Python `dict`, modelled as its insertion-ordered association list. -/
abbrev PyDict (α β : Type) := List (α × β)

/-- `d[k]` lookup / `k in d` membership: the first (and, in a real Python
dict, only) binding for `k`. -/
def dictGet? {α β : Type} [DecidableEq α] : PyDict α β → α → Option β
  | [], _ => none
  | (a, b) :: rest, k => if a = k then some b else dictGet? rest k

/-- `d[k] = v`: replaces the value in place (keeping the key's position) if
`k` is present, else appends the new binding at the end. -/
def dictSet {α β : Type} [DecidableEq α] : PyDict α β → α → β → PyDict α β
  | [], k, v => [(k, v)]
  | (a, b) :: rest, k, v =>
      if a = k then (a, v) :: rest else (a, b) :: dictSet rest k v

/-- `del d[k]` / `d.pop(k)` removal: drops the binding for `k`. -/
def dictRemove {α β : Type} [DecidableEq α] : PyDict α β → α → PyDict α β
  | [], _ => []
  | (a, b) :: rest, k => if a = k then rest else (a, b) :: dictRemove rest k

/-- `k in d`, as a Bool. -/
def dictContains {α β : Type} [DecidableEq α] (d : PyDict α β) (k : α) : Bool :=
  (dictGet? d k).isSome

/-- Keys are pairwise distinct — true of every real Python dict, and
preserved by all the operations above. -/
def keysNodup {α β : Type} (d : PyDict α β) : Prop :=
  (d.map Prod.fst).Nodup

/-- Number of bindings a dict holds for a key. -/
def countKey {α β : Type} [DecidableEq α] (d : PyDict α β) (k : α) : Nat :=
  (d.filter (fun p => decide (p.1 = k))).length

/-- `self.user_levels[user_id]`: one user's symbol → level dict. -/
abbrev UserLevels := PyDict String TargetLevel

/-- `self.user_levels`: user id → per-user dict. -/
abbrev Registry := PyDict Nat UserLevels

/-- The level the registry stores for a (user, symbol), if any. -/
def levelAt (reg : Registry) (u : Nat) (sym : String) : Option TargetLevel :=
  (dictGet? reg u).bind (fun m => dictGet? m sym)

/-- The user's sub-dict, empty when the user is unknown. -/
def userMapOf (reg : Registry) (u : Nat) : UserLevels :=
  (dictGet? reg u).getD []

/-- Well-formedness every run of the Python program maintains: key
uniqueness at both dict levels. -/
def RegistryWF (reg : Registry) : Prop :=
  keysNodup reg ∧ ∀ p ∈ reg, keysNodup p.2

instance keysNodupDecidable {α β : Type} [DecidableEq α] (d : PyDict α β) :
    Decidable (keysNodup d) :=
  inferInstanceAs (Decidable (d.map Prod.fst).Nodup)

instance registryWFDecidable (reg : Registry) : Decidable (RegistryWF reg) :=
  inferInstanceAs (Decidable (keysNodup reg ∧ ∀ p ∈ reg, keysNodup p.2))

/-- Python `str.upper()` on the ASCII symbol strings the bot handles. -/
def pyUpper (s : String) : String :=
  ⟨s.data.map Char.toUpper⟩

/-- Lines 122-123 of `add_level_command`: lazily create the user's sub-dict
before any argument validation. -/
def ensureUser (reg : Registry) (u : Nat) : Registry :=
  match dictGet? reg u with
  | some _ => reg
  | none => dictSet reg u []

/-- Outcome of `/add` (source lines 118-186), abstracting the reply text. -/
inductive AddResult where
  | invalidFormat
  | invalidSymbol
  | invalidPrice
  | added (warned : Bool)
  | updated (old : Price) (warned : Bool)
deriving DecidableEq

/-- Whether the `/add` call stored a level. -/
def AddResult.isSuccess : AddResult → Bool
  | .added _ => true
  | .updated _ _ => true
  | _ => false

/-- Whether the `/add` call emitted the target-above-current warning. -/
def AddResult.gaveWarning : AddResult → Bool
  | .added w => w
  | .updated _ w => w
  | _ => false

/-- `add_level_command` (source lines 118-186).  `argc` is
`len(context.args)`; `priceParse` is the outcome of `float(args[1])`
(`none` models the `ValueError` raised for a non-numeric argument);
`lookup` is `get_binance_price`; `now` is the creation clock.  The handler
first ensures the user's sub-dict exists (lines 122-123), then checks the
argument count (line 127), parses the price (line 137, `ValueError` caught
at line 182), validates the symbol by looking up its price (lines 140-143),
warns — without rejecting — when the target is at or above the current
price (lines 146-151), and finally stores the level, reporting the replaced
price on an update (lines 153-180). -/
def add_level_command (reg : Registry) (u : Nat) (argc : Nat)
    (symbolArg : String) (priceParse : Option Price)
    (lookup : String → Option Price) (now : Nat) : AddResult × Registry :=
  let reg1 := ensureUser reg u
  if argc ≠ 2 then (.invalidFormat, reg1)
  else
    match priceParse with
    | none => (.invalidPrice, reg1)
    | some p =>
      let symbol := pyUpper symbolArg
      match lookup symbol with
      | none => (.invalidSymbol, reg1)
      | some cur =>
        let warned := decide (cur ≤ p)
        let m := userMapOf reg1 u
        let reg2 := dictSet reg1 u (dictSet m symbol ⟨symbol, p, now⟩)
        match dictGet? m symbol with
        | some oldLvl => (.updated oldLvl.target_price warned, reg2)
        | none => (.added warned, reg2)

/-- Outcome of `/remove` (source lines 232-272), abstracting the reply. -/
inductive RemoveResult where
  | noLevels
  | showButtons
  | removed (lvl : TargetLevel)
  | notFound
deriving DecidableEq

/-- `remove_level_command` (source lines 232-272).  `args` is
`context.args`: with no argument the handler shows the inline keyboard
(lines 241-257); otherwise it uppercases the first argument (line 260) and
pops the matching level if present (lines 261-268). -/
def remove_level_command (reg : Registry) (u : Nat) (args : List String) :
    RemoveResult × Registry :=
  match dictGet? reg u with
  | none => (.noLevels, reg)
  | some m =>
    if m = [] then (.noLevels, reg)
    else
      match args with
      | [] => (.showButtons, reg)
      | a :: _ =>
        let symbol := pyUpper a
        match dictGet? m symbol with
        | some lvl => (.removed lvl, dictSet reg u (dictRemove m symbol))
        | none => (.notFound, reg)

/-- The ordered (symbol, level) sequence `/list` renders (source lines
188-230): the user's dict items in insertion order, empty when the user is
unknown (the handler then replies "No active levels"). -/
def list_levels_command (reg : Registry) (u : Nat) :
    List (String × TargetLevel) :=
  (dictGet? reg u).getD []

/-- One `send_target_hit_alert` attempt (source lines 346-371).
`delivered` records whether the Telegram send succeeded; on failure the
exception is caught and only logged (lines 370-371), so control always
returns normally to the caller. -/
structure Event where
  user : Nat
  symbol : String
  target : Price
  current : Price
  delivered : Bool
deriving DecidableEq

/-- The alert attempts of a tick that concern a given (user, symbol). -/
def alertsFor (evs : List Event) (u : Nat) (sym : String) : List Event :=
  evs.filter (fun e => decide (e.user = u ∧ e.symbol = sym))

/-- Inner loop of `check_all_levels` (source lines 330-341) for one user:
iterate a snapshot (`list(user_levels.items())`, line 330) of the user's
dict while deleting triggered entries from the live dict `m`.  Per entry:
query the price oracle; skip the entry when unavailable (lines 332-333);
when `current_price <= level.target_price` (line 338), send the alert
(line 339, outcome given by the `notifyOk` oracle) and then delete the
entry (line 341). -/
def processUserLevels (notifyOk : Nat → String → Bool)
    (lookup : String → Option Price) (u : Nat) :
    List (String × TargetLevel) → UserLevels → List Event × UserLevels
  | [], m => ([], m)
  | (sym, lvl) :: rest, m =>
    match lookup sym with
    | none => processUserLevels notifyOk lookup u rest m
    | some cur =>
      if cur ≤ lvl.target_price then
        (⟨u, sym, lvl.target_price, cur, notifyOk u sym⟩ ::
            (processUserLevels notifyOk lookup u rest (dictRemove m sym)).1,
          (processUserLevels notifyOk lookup u rest (dictRemove m sym)).2)
      else processUserLevels notifyOk lookup u rest m

/-- Outer loop of `check_all_levels` (source line 329): every user's dict,
in registry order; each user's dict is scanned and updated in place. -/
def checkUsers (notifyOk : Nat → String → Bool)
    (lookup : String → Option Price) : Registry → List Event × Registry
  | [] => ([], [])
  | (u, m) :: rest =>
    ((processUserLevels notifyOk lookup u m m).1 ++
        (checkUsers notifyOk lookup rest).1,
      (u, (processUserLevels notifyOk lookup u m m).2) ::
        (checkUsers notifyOk lookup rest).2)

/-- `check_all_levels` (source lines 325-344): one monitor tick over the
whole registry.  Returns the alert attempts made and the updated
registry. -/
def check_all_levels (reg : Registry) (lookup : String → Option Price)
    (notifyOk : Nat → String → Bool) : List Event × Registry :=
  checkUsers notifyOk lookup reg

/-- What one iteration of the `while True` body of
`price_monitoring_loop` does next: sleep and loop again, or stop. -/
inductive LoopStep where
  | continueAfter (wait : Nat)
  | terminated
deriving DecidableEq

/-- One iteration of `price_monitoring_loop`'s body (source lines
317-323): run the scan; on success sleep 300 (line 320); on an exception
escaping the scan, log it and sleep 60 instead (lines 321-323); in both
cases the `while True` loop proceeds to the next iteration — the body has
no path that leaves the loop. -/
def price_monitoring_iteration (scan : Except String Unit) : LoopStep :=
  match scan with
  | .ok _ => .continueAfter 300
  | .error _ => .continueAfter 60

/-- The sleep duration the loop picks after a scan outcome. -/
def monitorWait (scan : Except String Unit) : Nat :=
  match price_monitoring_iteration scan with
  | .continueAfter w => w
  | .terminated => 0

/-- The loop's sleep durations over an infinite schedule of scan
outcomes: iteration `n` sleeps `monitorWait (outcomes n)` and then
iteration `n + 1` runs — the loop is total. -/
def monitorTrace (outcomes : Nat → Except String Unit) (n : Nat) : Nat :=
  monitorWait (outcomes n)

/-- Outcome of handling one triggered entry of `check_all_levels` when a
manual `/remove` may land at the `await send_target_hit_alert` yield
point. -/
structure RaceOutcome where
  notified : Bool
  keyError : Bool
  finalMap : UserLevels
deriving DecidableEq

/-- Per-entry body of `check_all_levels` (source lines 331-341) with the
one interleaving the claim is about made explicit: when
`removeDuringNotify` is true, a concurrent manual removal of the same
(user, symbol) lands while `send_target_hit_alert` is awaited — that is,
after the trigger comparison on line 338 evaluated true but before the
`del self.user_levels[user_id][symbol]` on line 341.  The `del` of an
absent key raises `KeyError`, recorded in `keyError`. -/
def tickEntryWithRemoveRace (m : UserLevels) (sym : String)
    (lvl : TargetLevel) (lookup : String → Option Price)
    (removeDuringNotify : Bool) : RaceOutcome :=
  match lookup sym with
  | none => ⟨false, false, m⟩
  | some cur =>
    if cur ≤ lvl.target_price then
      let m1 := if removeDuringNotify then dictRemove m sym else m
      if dictContains m1 sym then ⟨true, false, dictRemove m1 sym⟩
      else ⟨true, true, m1⟩
    else ⟨false, false, m⟩

/-! ## Basic dictionary lemmas -/

theorem dictGet?_cons_self {α β : Type} [DecidableEq α] (a : α) (b : β)
    (tl : PyDict α β) : dictGet? ((a, b) :: tl) a = some b := by
  simp [dictGet?]

theorem dictGet?_cons_ne {α β : Type} [DecidableEq α] (a k : α) (b : β)
    (tl : PyDict α β) (h : a ≠ k) :
    dictGet? ((a, b) :: tl) k = dictGet? tl k := by
  simp [dictGet?, h]

theorem dictSet_cons_self {α β : Type} [DecidableEq α] (a : α) (b v : β)
    (tl : PyDict α β) : dictSet ((a, b) :: tl) a v = (a, v) :: tl := by
  simp [dictSet]

theorem dictSet_cons_ne {α β : Type} [DecidableEq α] (a k : α) (b v : β)
    (tl : PyDict α β) (h : a ≠ k) :
    dictSet ((a, b) :: tl) k v = (a, b) :: dictSet tl k v := by
  simp [dictSet, h]

theorem dictRemove_cons_self {α β : Type} [DecidableEq α] (a : α) (b : β)
    (tl : PyDict α β) : dictRemove ((a, b) :: tl) a = tl := by
  simp [dictRemove]

theorem dictRemove_cons_ne {α β : Type} [DecidableEq α] (a k : α) (b : β)
    (tl : PyDict α β) (h : a ≠ k) :
    dictRemove ((a, b) :: tl) k = (a, b) :: dictRemove tl k := by
  simp [dictRemove, h]

theorem dictGet?_set_self {α β : Type} [DecidableEq α] (d : PyDict α β)
    (k : α) (v : β) : dictGet? (dictSet d k v) k = some v := by
  induction d with
  | nil => simp [dictSet, dictGet?]
  | cons hd tl ih =>
    obtain ⟨a, b⟩ := hd
    by_cases h : a = k
    · subst h
      rw [dictSet_cons_self, dictGet?_cons_self]
    · rw [dictSet_cons_ne a k b v tl h, dictGet?_cons_ne a k b _ h, ih]

theorem dictGet?_set_ne {α β : Type} [DecidableEq α] (d : PyDict α β)
    (k k' : α) (v : β) (h : k' ≠ k) :
    dictGet? (dictSet d k v) k' = dictGet? d k' := by
  induction d with
  | nil =>
    show (if k = k' then some v else none) = none
    rw [if_neg (fun hh => h hh.symm)]
  | cons hd tl ih =>
    obtain ⟨a, b⟩ := hd
    by_cases hak : a = k
    · subst hak
      rw [dictSet_cons_self, dictGet?_cons_ne a k' v tl (fun hh => h hh.symm),
        dictGet?_cons_ne a k' b tl (fun hh => h hh.symm)]
    · rw [dictSet_cons_ne a k b v tl hak]
      by_cases hak' : a = k'
      · subst hak'
        rw [dictGet?_cons_self, dictGet?_cons_self]
      · rw [dictGet?_cons_ne a k' b _ hak', dictGet?_cons_ne a k' b tl hak', ih]

theorem dictGet?_remove_ne {α β : Type} [DecidableEq α] (d : PyDict α β)
    (k k' : α) (h : k' ≠ k) :
    dictGet? (dictRemove d k) k' = dictGet? d k' := by
  induction d with
  | nil => rfl
  | cons hd tl ih =>
    obtain ⟨a, b⟩ := hd
    by_cases hak : a = k
    · subst hak
      rw [dictRemove_cons_self, dictGet?_cons_ne a k' b tl (fun hh => h hh.symm)]
    · rw [dictRemove_cons_ne a k b tl hak]
      by_cases hak' : a = k'
      · subst hak'
        rw [dictGet?_cons_self, dictGet?_cons_self]
      · rw [dictGet?_cons_ne a k' b _ hak', dictGet?_cons_ne a k' b tl hak', ih]

theorem dictGet?_eq_none_iff {α β : Type} [DecidableEq α] (d : PyDict α β)
    (k : α) : dictGet? d k = none ↔ k ∉ d.map Prod.fst := by
  induction d with
  | nil => simp [dictGet?]
  | cons hd tl ih =>
    obtain ⟨a, b⟩ := hd
    by_cases hak : a = k
    · subst hak
      rw [dictGet?_cons_self]
      simp
    · rw [dictGet?_cons_ne a k b tl hak, ih]
      simp only [List.map_cons, List.mem_cons]
      constructor
      · rintro hn (h1 | h2)
        · exact hak h1.symm
        · exact hn h2
      · exact fun hn h2 => hn (Or.inr h2)

theorem dictGet?_mem {α β : Type} [DecidableEq α] (d : PyDict α β)
    (k : α) (v : β) (h : dictGet? d k = some v) : (k, v) ∈ d := by
  induction d with
  | nil => exact absurd h (by simp [dictGet?])
  | cons hd tl ih =>
    obtain ⟨a, b⟩ := hd
    by_cases hak : a = k
    · subst hak
      rw [dictGet?_cons_self] at h
      rw [Option.some_inj] at h
      subst h
      exact List.mem_cons_self _ _
    · rw [dictGet?_cons_ne a k b tl hak] at h
      exact List.mem_cons_of_mem _ (ih h)

theorem dictGet?_remove_self {α β : Type} [DecidableEq α] (d : PyDict α β)
    (k : α) (h : keysNodup d) : dictGet? (dictRemove d k) k = none := by
  induction d with
  | nil => rfl
  | cons hd tl ih =>
    obtain ⟨a, b⟩ := hd
    rw [keysNodup, List.map_cons, List.nodup_cons] at h
    by_cases hak : a = k
    · subst hak
      rw [dictRemove_cons_self]
      exact (dictGet?_eq_none_iff tl a).mpr h.1
    · rw [dictRemove_cons_ne a k b tl hak, dictGet?_cons_ne a k b _ hak]
      exact ih h.2

theorem mem_keys_dictSet {α β : Type} [DecidableEq α] (d : PyDict α β)
    (k x : α) (v : β) :
    x ∈ (dictSet d k v).map Prod.fst ↔ x ∈ d.map Prod.fst ∨ x = k := by
  induction d with
  | nil => simp [dictSet]
  | cons hd tl ih =>
    obtain ⟨a, b⟩ := hd
    by_cases hak : a = k
    · subst hak
      rw [dictSet_cons_self]
      simp only [List.map_cons, List.mem_cons]
      tauto
    · rw [dictSet_cons_ne a k b v tl hak]
      simp only [List.map_cons, List.mem_cons, ih]
      tauto

theorem mem_keys_dictRemove {α β : Type} [DecidableEq α] (d : PyDict α β)
    (k x : α) (h : x ∈ (dictRemove d k).map Prod.fst) :
    x ∈ d.map Prod.fst := by
  induction d with
  | nil => exact absurd h (by simp [dictRemove])
  | cons hd tl ih =>
    obtain ⟨a, b⟩ := hd
    by_cases hak : a = k
    · subst hak
      rw [dictRemove_cons_self] at h
      exact List.mem_cons_of_mem _ h
    · rw [dictRemove_cons_ne a k b tl hak] at h
      simp only [List.map_cons, List.mem_cons] at h ⊢
      rcases h with h | h
      · exact Or.inl h
      · exact Or.inr (ih h)

theorem keysNodup_set {α β : Type} [DecidableEq α] (d : PyDict α β)
    (k : α) (v : β) (h : keysNodup d) : keysNodup (dictSet d k v) := by
  induction d with
  | nil => simp [dictSet, keysNodup]
  | cons hd tl ih =>
    obtain ⟨a, b⟩ := hd
    rw [keysNodup, List.map_cons, List.nodup_cons] at h
    by_cases hak : a = k
    · subst hak
      rw [keysNodup, dictSet_cons_self, List.map_cons, List.nodup_cons]
      exact h
    · rw [keysNodup, dictSet_cons_ne a k b v tl hak, List.map_cons,
        List.nodup_cons]
      constructor
      · intro hmem
        rcases (mem_keys_dictSet tl k a v).mp hmem with hm | hm
        · exact h.1 hm
        · exact hak hm
      · exact ih h.2

theorem keysNodup_remove {α β : Type} [DecidableEq α] (d : PyDict α β)
    (k : α) (h : keysNodup d) : keysNodup (dictRemove d k) := by
  induction d with
  | nil => simpa [dictRemove] using h
  | cons hd tl ih =>
    obtain ⟨a, b⟩ := hd
    rw [keysNodup, List.map_cons, List.nodup_cons] at h
    by_cases hak : a = k
    · subst hak
      rw [keysNodup]
      rw [dictRemove_cons_self]
      exact h.2
    · rw [keysNodup, dictRemove_cons_ne a k b tl hak, List.map_cons,
        List.nodup_cons]
      exact ⟨fun hmem => h.1 (mem_keys_dictRemove tl k a hmem), ih h.2⟩

theorem dictSet_of_not_mem {α β : Type} [DecidableEq α] (d : PyDict α β)
    (k : α) (v : β) (h : k ∉ d.map Prod.fst) :
    dictSet d k v = d ++ [(k, v)] := by
  induction d with
  | nil => rfl
  | cons hd tl ih =>
    obtain ⟨a, b⟩ := hd
    simp only [List.map_cons, List.mem_cons] at h
    push_neg at h
    rw [dictSet_cons_ne a k b v tl (fun hh => h.1 hh.symm), ih h.2]
    rfl

theorem mapFst_dictSet_of_mem {α β : Type} [DecidableEq α] (d : PyDict α β)
    (k : α) (v : β) (h : k ∈ d.map Prod.fst) :
    (dictSet d k v).map Prod.fst = d.map Prod.fst := by
  induction d with
  | nil => exact absurd h (by simp)
  | cons hd tl ih =>
    obtain ⟨a, b⟩ := hd
    by_cases hak : a = k
    · subst hak
      rw [dictSet_cons_self]
      simp
    · simp only [List.map_cons, List.mem_cons] at h
      rcases h with h | h
      · exact absurd h.symm hak
      · rw [dictSet_cons_ne a k b v tl hak, List.map_cons, List.map_cons,
          ih h]

theorem countKey_cons_self {α β : Type} [DecidableEq α] (a : α) (b : β)
    (tl : PyDict α β) : countKey ((a, b) :: tl) a = countKey tl a + 1 := by
  simp [countKey, List.filter]

theorem countKey_cons_ne {α β : Type} [DecidableEq α] (a k : α) (b : β)
    (tl : PyDict α β) (h : a ≠ k) :
    countKey ((a, b) :: tl) k = countKey tl k := by
  simp [countKey, List.filter, h]

theorem countKey_eq_zero {α β : Type} [DecidableEq α] (d : PyDict α β)
    (k : α) (h : k ∉ d.map Prod.fst) : countKey d k = 0 := by
  induction d with
  | nil => rfl
  | cons hd tl ih =>
    obtain ⟨a, b⟩ := hd
    simp only [List.map_cons, List.mem_cons] at h
    push_neg at h
    rw [countKey_cons_ne a k b tl (fun hh => h.1 hh.symm)]
    exact ih h.2

theorem countKey_dictSet {α β : Type} [DecidableEq α] (d : PyDict α β)
    (k : α) (v : β) (h : keysNodup d) : countKey (dictSet d k v) k = 1 := by
  induction d with
  | nil => simp [dictSet, countKey, List.filter]
  | cons hd tl ih =>
    obtain ⟨a, b⟩ := hd
    rw [keysNodup, List.map_cons, List.nodup_cons] at h
    by_cases hak : a = k
    · subst hak
      rw [dictSet_cons_self, countKey_cons_self, countKey_eq_zero tl a h.1]
    · rw [dictSet_cons_ne a k b v tl hak, countKey_cons_ne a k b _ hak]
      exact ih h.2

/-! ## Lemmas about the tick's inner loop -/

theorem alertsFor_nil (u : Nat) (sym : String) : alertsFor [] u sym = [] :=
  rfl

theorem alertsFor_cons_yes (e : Event) (evs : List Event) (u : Nat)
    (sym : String) (h : e.user = u ∧ e.symbol = sym) :
    alertsFor (e :: evs) u sym = e :: alertsFor evs u sym := by
  simp [alertsFor, List.filter, h]

theorem alertsFor_cons_no (e : Event) (evs : List Event) (u : Nat)
    (sym : String) (h : ¬(e.user = u ∧ e.symbol = sym)) :
    alertsFor (e :: evs) u sym = alertsFor evs u sym := by
  simp [alertsFor, List.filter, h]

theorem alertsFor_append (xs ys : List Event) (u : Nat) (sym : String) :
    alertsFor (xs ++ ys) u sym = alertsFor xs u sym ++ alertsFor ys u sym := by
  simp [alertsFor, List.filter_append]

theorem alertsFor_eq_nil (evs : List Event) (u : Nat) (sym : String)
    (h : ∀ e ∈ evs, ¬(e.user = u ∧ e.symbol = sym)) :
    alertsFor evs u sym = [] := by
  induction evs with
  | nil => rfl
  | cons e tl ih =>
    rw [alertsFor_cons_no e tl u sym (h e (List.mem_cons_self e tl))]
    exact ih fun e' he' => h e' (List.mem_cons_of_mem e he')

theorem pul_nil (nOk : Nat → String → Bool) (lookup : String → Option Price)
    (u : Nat) (m : UserLevels) :
    processUserLevels nOk lookup u [] m = ([], m) :=
  rfl

theorem pul_cons_none (nOk : Nat → String → Bool)
    (lookup : String → Option Price) (u : Nat) (sym : String)
    (lvl : TargetLevel) (rest : List (String × TargetLevel)) (m : UserLevels)
    (hl : lookup sym = none) :
    processUserLevels nOk lookup u ((sym, lvl) :: rest) m =
      processUserLevels nOk lookup u rest m := by
  simp [processUserLevels, hl]

theorem pul_cons_hit (nOk : Nat → String → Bool)
    (lookup : String → Option Price) (u : Nat) (sym : String)
    (lvl : TargetLevel) (rest : List (String × TargetLevel)) (m : UserLevels)
    (cur : Price) (hl : lookup sym = some cur)
    (hc : cur ≤ lvl.target_price) :
    processUserLevels nOk lookup u ((sym, lvl) :: rest) m =
      (⟨u, sym, lvl.target_price, cur, nOk u sym⟩ ::
          (processUserLevels nOk lookup u rest (dictRemove m sym)).1,
        (processUserLevels nOk lookup u rest (dictRemove m sym)).2) := by
  simp [processUserLevels, hl, hc]

theorem pul_cons_miss (nOk : Nat → String → Bool)
    (lookup : String → Option Price) (u : Nat) (sym : String)
    (lvl : TargetLevel) (rest : List (String × TargetLevel)) (m : UserLevels)
    (cur : Price) (hl : lookup sym = some cur)
    (hc : ¬cur ≤ lvl.target_price) :
    processUserLevels nOk lookup u ((sym, lvl) :: rest) m =
      processUserLevels nOk lookup u rest m := by
  simp [processUserLevels, hl, hc]

theorem pul_user (nOk : Nat → String → Bool) (lookup : String → Option Price)
    (u : Nat) :
    ∀ (snap : List (String × TargetLevel)) (m : UserLevels) (ev : Event),
      ev ∈ (processUserLevels nOk lookup u snap m).1 → ev.user = u := by
  intro snap
  induction snap with
  | nil =>
    intro m ev h
    rw [pul_nil] at h
    exact absurd h (List.not_mem_nil ev)
  | cons hd tl ih =>
    obtain ⟨sym, lvl⟩ := hd
    intro m ev h
    cases hl : lookup sym with
    | none =>
      rw [pul_cons_none nOk lookup u sym lvl tl m hl] at h
      exact ih m ev h
    | some cur =>
      by_cases hc : cur ≤ lvl.target_price
      · rw [pul_cons_hit nOk lookup u sym lvl tl m cur hl hc] at h
        rcases List.mem_cons.mp h with h | h
        · subst h
          rfl
        · exact ih (dictRemove m sym) ev h
      · rw [pul_cons_miss nOk lookup u sym lvl tl m cur hl hc] at h
        exact ih m ev h

theorem pul_symbols (nOk : Nat → String → Bool)
    (lookup : String → Option Price) (u : Nat) :
    ∀ (snap : List (String × TargetLevel)) (m : UserLevels) (ev : Event),
      ev ∈ (processUserLevels nOk lookup u snap m).1 →
      ev.symbol ∈ snap.map Prod.fst := by
  intro snap
  induction snap with
  | nil =>
    intro m ev h
    rw [pul_nil] at h
    exact absurd h (List.not_mem_nil ev)
  | cons hd tl ih =>
    obtain ⟨sym, lvl⟩ := hd
    intro m ev h
    rw [List.map_cons, List.mem_cons]
    cases hl : lookup sym with
    | none =>
      rw [pul_cons_none nOk lookup u sym lvl tl m hl] at h
      exact Or.inr (ih m ev h)
    | some cur =>
      by_cases hc : cur ≤ lvl.target_price
      · rw [pul_cons_hit nOk lookup u sym lvl tl m cur hl hc] at h
        rcases List.mem_cons.mp h with h | h
        · subst h
          exact Or.inl rfl
        · exact Or.inr (ih (dictRemove m sym) ev h)
      · rw [pul_cons_miss nOk lookup u sym lvl tl m cur hl hc] at h
        exact Or.inr (ih m ev h)

theorem pul_frame (nOk : Nat → String → Bool)
    (lookup : String → Option Price) (u : Nat) :
    ∀ (snap : List (String × TargetLevel)) (m : UserLevels) (sym : String),
      sym ∉ snap.map Prod.fst →
      dictGet? (processUserLevels nOk lookup u snap m).2 sym =
        dictGet? m sym := by
  intro snap
  induction snap with
  | nil =>
    intro m sym _
    rw [pul_nil]
  | cons hd tl ih =>
    obtain ⟨s, lvl⟩ := hd
    intro m sym hnot
    rw [List.map_cons, List.mem_cons] at hnot
    push_neg at hnot
    cases hl : lookup s with
    | none =>
      rw [pul_cons_none nOk lookup u s lvl tl m hl]
      exact ih m sym hnot.2
    | some cur =>
      by_cases hc : cur ≤ lvl.target_price
      · rw [pul_cons_hit nOk lookup u s lvl tl m cur hl hc]
        rw [ih (dictRemove m s) sym hnot.2]
        exact dictGet?_remove_ne m s sym hnot.1
      · rw [pul_cons_miss nOk lookup u s lvl tl m cur hl hc]
        exact ih m sym hnot.2

theorem pul_nodup (nOk : Nat → String → Bool)
    (lookup : String → Option Price) (u : Nat) :
    ∀ (snap : List (String × TargetLevel)) (m : UserLevels),
      keysNodup m → keysNodup (processUserLevels nOk lookup u snap m).2 := by
  intro snap
  induction snap with
  | nil =>
    intro m hm
    rw [pul_nil]
    exact hm
  | cons hd tl ih =>
    obtain ⟨s, lvl⟩ := hd
    intro m hm
    cases hl : lookup s with
    | none =>
      rw [pul_cons_none nOk lookup u s lvl tl m hl]
      exact ih m hm
    | some cur =>
      by_cases hc : cur ≤ lvl.target_price
      · rw [pul_cons_hit nOk lookup u s lvl tl m cur hl hc]
        exact ih (dictRemove m s) (keysNodup_remove m s hm)
      · rw [pul_cons_miss nOk lookup u s lvl tl m cur hl hc]
        exact ih m hm

theorem pul_no_alert_of_absent (nOk : Nat → String → Bool)
    (lookup : String → Option Price) (u : Nat)
    (snap : List (String × TargetLevel)) (m : UserLevels) (sym : String)
    (hnot : sym ∉ snap.map Prod.fst) :
    alertsFor (processUserLevels nOk lookup u snap m).1 u sym = [] := by
  apply alertsFor_eq_nil
  intro e he hcontr
  apply hnot
  rw [← hcontr.2]
  exact pul_symbols nOk lookup u snap m e he

theorem pul_spec (nOk : Nat → String → Bool) (lookup : String → Option Price)
    (u : Nat) :
    ∀ (snap : List (String × TargetLevel)) (m : UserLevels) (sym : String)
      (lvl : TargetLevel), (sym, lvl) ∈ snap → keysNodup snap →
      keysNodup m → dictGet? m sym = some lvl →
      (lookup sym = none →
        dictGet? (processUserLevels nOk lookup u snap m).2 sym = some lvl ∧
        alertsFor (processUserLevels nOk lookup u snap m).1 u sym = []) ∧
      (∀ cur : Price, lookup sym = some cur → cur ≤ lvl.target_price →
        dictGet? (processUserLevels nOk lookup u snap m).2 sym = none ∧
        alertsFor (processUserLevels nOk lookup u snap m).1 u sym =
          [⟨u, sym, lvl.target_price, cur, nOk u sym⟩]) ∧
      (∀ cur : Price, lookup sym = some cur → lvl.target_price < cur →
        dictGet? (processUserLevels nOk lookup u snap m).2 sym = some lvl ∧
        alertsFor (processUserLevels nOk lookup u snap m).1 u sym = []) := by
  intro snap
  induction snap with
  | nil =>
    intro m sym lvl hin
    exact absurd hin (List.not_mem_nil _)
  | cons hd tl ih =>
    obtain ⟨s, l⟩ := hd
    intro m sym lvl hin hsnd hmnd hget
    rw [keysNodup, List.map_cons, List.nodup_cons] at hsnd
    by_cases hs : s = sym
    · subst hs
      have hl : l = lvl := by
        rcases List.mem_cons.mp hin with h | h
        · exact (((Prod.mk.injEq s lvl s l).mp h).2).symm
        · exact absurd (List.mem_map_of_mem Prod.fst h) hsnd.1
      subst hl
      refine ⟨?_, ?_, ?_⟩
      · intro hnone
        rw [pul_cons_none nOk lookup u s l tl m hnone]
        refine ⟨?_, pul_no_alert_of_absent nOk lookup u tl m s hsnd.1⟩
        rw [pul_frame nOk lookup u tl m s hsnd.1]
        exact hget
      · intro cur hsome hle
        rw [pul_cons_hit nOk lookup u s l tl m cur hsome hle]
        constructor
        · rw [pul_frame nOk lookup u tl (dictRemove m s) s hsnd.1]
          exact dictGet?_remove_self m s hmnd
        · rw [alertsFor_cons_yes _ _ u s ⟨rfl, rfl⟩,
            pul_no_alert_of_absent nOk lookup u tl (dictRemove m s) s hsnd.1]
      · intro cur hsome hlt
        rw [pul_cons_miss nOk lookup u s l tl m cur hsome (not_le.mpr hlt)]
        refine ⟨?_, pul_no_alert_of_absent nOk lookup u tl m s hsnd.1⟩
        rw [pul_frame nOk lookup u tl m s hsnd.1]
        exact hget
    · have hin' : (sym, lvl) ∈ tl := by
        rcases List.mem_cons.mp hin with h | h
        · exact absurd ((Prod.mk.injEq sym lvl s l).mp h).1.symm hs
        · exact h
      cases hl2 : lookup s with
      | none =>
        rw [pul_cons_none nOk lookup u s l tl m hl2]
        exact ih m sym lvl hin' hsnd.2 hmnd hget
      | some cur2 =>
        by_cases hc2 : cur2 ≤ l.target_price
        · rw [pul_cons_hit nOk lookup u s l tl m cur2 hl2 hc2]
          have hget' : dictGet? (dictRemove m s) sym = some lvl := by
            rw [dictGet?_remove_ne m s sym (fun hh => hs hh.symm)]
            exact hget
          have h3 := ih (dictRemove m s) sym lvl hin' hsnd.2
            (keysNodup_remove m s hmnd) hget'
          have hevno : ¬((⟨u, s, l.target_price, cur2, nOk u s⟩ : Event).user = u ∧
              (⟨u, s, l.target_price, cur2, nOk u s⟩ : Event).symbol = sym) := by
            intro hcontr
            exact hs hcontr.2
          refine ⟨?_, ?_, ?_⟩
          · intro hnone
            rw [alertsFor_cons_no _ _ u sym hevno]
            exact (h3.1) hnone
          · intro cur hsome hle
            rw [alertsFor_cons_no _ _ u sym hevno]
            exact (h3.2.1) cur hsome hle
          · intro cur hsome hlt
            rw [alertsFor_cons_no _ _ u sym hevno]
            exact (h3.2.2) cur hsome hlt
        · rw [pul_cons_miss nOk lookup u s l tl m cur2 hl2 hc2]
          exact ih m sym lvl hin' hsnd.2 hmnd hget

/-! ## Lemmas about the tick's outer loop -/

theorem cu_nil (nOk : Nat → String → Bool) (lookup : String → Option Price) :
    checkUsers nOk lookup [] = ([], []) :=
  rfl

theorem cu_cons (nOk : Nat → String → Bool) (lookup : String → Option Price)
    (u : Nat) (m : UserLevels) (rest : Registry) :
    checkUsers nOk lookup ((u, m) :: rest) =
      ((processUserLevels nOk lookup u m m).1 ++
          (checkUsers nOk lookup rest).1,
        (u, (processUserLevels nOk lookup u m m).2) ::
          (checkUsers nOk lookup rest).2) :=
  rfl

theorem cu_users (nOk : Nat → String → Bool)
    (lookup : String → Option Price) :
    ∀ (reg : Registry) (ev : Event),
      ev ∈ (checkUsers nOk lookup reg).1 → ev.user ∈ reg.map Prod.fst := by
  intro reg
  induction reg with
  | nil =>
    intro ev h
    rw [cu_nil] at h
    exact absurd h (List.not_mem_nil ev)
  | cons hd rest ih =>
    obtain ⟨u, m⟩ := hd
    intro ev h
    rw [cu_cons] at h
    rw [List.map_cons, List.mem_cons]
    rcases List.mem_append.mp h with h | h
    · exact Or.inl (pul_user nOk lookup u m m ev h)
    · exact Or.inr (ih ev h)

theorem cu_keys (nOk : Nat → String → Bool)
    (lookup : String → Option Price) :
    ∀ reg : Registry,
      (checkUsers nOk lookup reg).2.map Prod.fst = reg.map Prod.fst := by
  intro reg
  induction reg with
  | nil => rfl
  | cons hd rest ih =>
    obtain ⟨u, m⟩ := hd
    rw [cu_cons, List.map_cons, List.map_cons, ih]

theorem cu_spec (nOk : Nat → String → Bool) (lookup : String → Option Price) :
    ∀ (reg : Registry) (u : Nat) (m : UserLevels), keysNodup reg →
      dictGet? reg u = some m →
      dictGet? (checkUsers nOk lookup reg).2 u =
        some (processUserLevels nOk lookup u m m).2 ∧
      ∀ sym : String, alertsFor (checkUsers nOk lookup reg).1 u sym =
        alertsFor (processUserLevels nOk lookup u m m).1 u sym := by
  intro reg
  induction reg with
  | nil =>
    intro u m _ hm
    exact absurd hm (by simp [dictGet?])
  | cons hd rest ih =>
    obtain ⟨a, b⟩ := hd
    intro u m hnd hm
    rw [keysNodup, List.map_cons, List.nodup_cons] at hnd
    rw [cu_cons]
    by_cases hau : a = u
    · subst hau
      rw [dictGet?_cons_self] at hm
      rw [Option.some_inj] at hm
      subst hm
      constructor
      · exact dictGet?_cons_self a _ _
      · intro sym
        rw [alertsFor_append]
        have hrest : alertsFor (checkUsers nOk lookup rest).1 a sym = [] := by
          apply alertsFor_eq_nil
          intro e he hcontr
          apply hnd.1
          rw [← hcontr.1]
          exact cu_users nOk lookup rest e he
        rw [hrest, List.append_nil]
    · rw [dictGet?_cons_ne a u b rest hau] at hm
      have h2 := ih u m hnd.2 hm
      constructor
      · rw [dictGet?_cons_ne a u _ _ hau]
        exact h2.1
      · intro sym
        rw [alertsFor_append]
        have hblock : alertsFor (processUserLevels nOk lookup a b b).1 u sym
            = [] := by
          apply alertsFor_eq_nil
          intro e he hcontr
          apply hau
          rw [← hcontr.1]
          exact (pul_user nOk lookup a b b e he).symm
        rw [hblock, List.nil_append]
        exact h2.2 sym

theorem cu_inner_nodup (nOk : Nat → String → Bool)
    (lookup : String → Option Price) :
    ∀ reg : Registry, (∀ p ∈ reg, keysNodup p.2) →
      ∀ p ∈ (checkUsers nOk lookup reg).2, keysNodup p.2 := by
  intro reg
  induction reg with
  | nil =>
    intro _ p hp
    exact absurd hp (List.not_mem_nil p)
  | cons hd rest ih =>
    obtain ⟨u, m⟩ := hd
    intro hall p hp
    rw [cu_cons] at hp
    rcases List.mem_cons.mp hp with hp | hp
    · subst hp
      exact pul_nodup nOk lookup u m m
        (hall (u, m) (List.mem_cons_self _ _))
    · exact ih (fun q hq => hall q (List.mem_cons_of_mem _ hq)) p hp

theorem check_preserves_WF (reg : Registry) (lookup : String → Option Price)
    (nOk : Nat → String → Bool) (hwf : RegistryWF reg) :
    RegistryWF (check_all_levels reg lookup nOk).2 := by
  constructor
  · rw [keysNodup, check_all_levels, cu_keys]
    exact hwf.1
  · exact cu_inner_nodup nOk lookup reg hwf.2

theorem no_alert_if_absent (reg : Registry) (lookup : String → Option Price)
    (nOk : Nat → String → Bool) (u : Nat) (sym : String)
    (hnd : keysNodup reg) (habs : levelAt reg u sym = none) :
    alertsFor (check_all_levels reg lookup nOk).1 u sym = [] := by
  rw [check_all_levels]
  rw [levelAt] at habs
  cases hu : dictGet? reg u with
  | none =>
    apply alertsFor_eq_nil
    intro e he hcontr
    have hmem := cu_users nOk lookup reg e he
    rw [hcontr.1] at hmem
    exact (dictGet?_eq_none_iff reg u).mp hu hmem
  | some m =>
    rw [hu] at habs
    have habs' : dictGet? m sym = none := habs
    rw [(cu_spec nOk lookup reg u m hnd hu).2 sym]
    apply alertsFor_eq_nil
    intro e he hcontr
    have hmem := pul_symbols nOk lookup u m m e he
    rw [hcontr.2] at hmem
    exact (dictGet?_eq_none_iff m sym).mp habs' hmem

/-! ## Lemmas about the command handlers -/

theorem ensureUser_get_self (reg : Registry) (u : Nat) :
    dictGet? (ensureUser reg u) u = some (userMapOf reg u) := by
  rw [ensureUser]
  cases hu : dictGet? reg u with
  | none =>
    rw [userMapOf, hu]
    exact dictGet?_set_self reg u []
  | some m =>
    rw [userMapOf, hu]
    rfl

theorem ensureUser_get_ne (reg : Registry) (u v : Nat) (h : v ≠ u) :
    dictGet? (ensureUser reg u) v = dictGet? reg v := by
  rw [ensureUser]
  cases hu : dictGet? reg u with
  | none => exact dictGet?_set_ne reg u v [] h
  | some m => rfl

theorem userMapOf_ensureUser (reg : Registry) (u : Nat) :
    userMapOf (ensureUser reg u) u = userMapOf reg u := by
  rw [userMapOf, ensureUser_get_self]
  rfl

theorem levelAt_ensureUser (reg : Registry) (u v : Nat) (sym : String) :
    levelAt (ensureUser reg u) v sym = levelAt reg v sym := by
  by_cases hvu : v = u
  · subst hvu
    rw [levelAt, levelAt, ensureUser_get_self]
    cases hu : dictGet? reg v with
    | none =>
      rw [userMapOf, hu]
      rfl
    | some m =>
      rw [userMapOf, hu]
      rfl
  · rw [levelAt, levelAt, ensureUser_get_ne reg u v hvu]

theorem keysNodup_ensureUser (reg : Registry) (u : Nat)
    (h : keysNodup reg) : keysNodup (ensureUser reg u) := by
  rw [ensureUser]
  cases dictGet? reg u with
  | none => exact keysNodup_set reg u [] h
  | some m => exact h

theorem add_eq_invalidFormat (reg : Registry) (u argc : Nat) (s : String)
    (pp : Option Price) (lookup : String → Option Price) (now : Nat)
    (h : argc ≠ 2) :
    add_level_command reg u argc s pp lookup now =
      (.invalidFormat, ensureUser reg u) := by
  simp [add_level_command, h]

theorem add_eq_invalidPrice (reg : Registry) (u : Nat) (s : String)
    (lookup : String → Option Price) (now : Nat) :
    add_level_command reg u 2 s none lookup now =
      (.invalidPrice, ensureUser reg u) := by
  simp [add_level_command]

theorem add_eq_invalidSymbol (reg : Registry) (u : Nat) (s : String)
    (p : Price) (lookup : String → Option Price) (now : Nat)
    (h : lookup (pyUpper s) = none) :
    add_level_command reg u 2 s (some p) lookup now =
      (.invalidSymbol, ensureUser reg u) := by
  simp [add_level_command, h]

theorem add_eq_success (reg : Registry) (u : Nat) (s : String) (p : Price)
    (lookup : String → Option Price) (now : Nat) (cur : Price)
    (h : lookup (pyUpper s) = some cur) :
    add_level_command reg u 2 s (some p) lookup now =
      ((match dictGet? (userMapOf reg u) (pyUpper s) with
        | some oldLvl => AddResult.updated oldLvl.target_price (decide (cur ≤ p))
        | none => AddResult.added (decide (cur ≤ p))),
        dictSet (ensureUser reg u) u
          (dictSet (userMapOf reg u) (pyUpper s) ⟨pyUpper s, p, now⟩)) := by
  simp only [add_level_command, h, userMapOf_ensureUser]
  norm_num
  cases dictGet? (userMapOf reg u) (pyUpper s) <;> rfl

theorem add_success_levelAt (reg : Registry) (u : Nat) (s : String)
    (p : Price) (lookup : String → Option Price) (now : Nat) (cur : Price)
    (h : lookup (pyUpper s) = some cur) :
    levelAt (add_level_command reg u 2 s (some p) lookup now).2 u
      (pyUpper s) = some ⟨pyUpper s, p, now⟩ := by
  rw [add_eq_success reg u s p lookup now cur h, levelAt]
  rw [dictGet?_set_self]
  exact dictGet?_set_self (userMapOf reg u) (pyUpper s) ⟨pyUpper s, p, now⟩

theorem keysNodup_userMapOf (reg : Registry) (u : Nat)
    (hwf : RegistryWF reg) : keysNodup (userMapOf reg u) := by
  rw [userMapOf]
  cases hu : dictGet? reg u with
  | none => exact List.nodup_nil
  | some m => exact hwf.2 (u, m) (dictGet?_mem reg u m hu)

theorem tickRace_eq_hit (m : UserLevels) (sym : String) (lvl : TargetLevel)
    (lookup : String → Option Price) (cur : Price) (b : Bool)
    (hl : lookup sym = some cur) (ht : cur ≤ lvl.target_price) :
    tickEntryWithRemoveRace m sym lvl lookup b =
      (if dictContains (if b then dictRemove m sym else m) sym
        then ⟨true, false, dictRemove (if b then dictRemove m sym else m) sym⟩
        else ⟨true, true, if b then dictRemove m sym else m⟩) := by
  simp only [tickEntryWithRemoveRace, hl, if_pos ht]

theorem userMapOf_get (reg : Registry) (u : Nat) (sym : String) :
    dictGet? (userMapOf reg u) sym = levelAt reg u sym := by
  rw [userMapOf, levelAt]
  cases dictGet? reg u <;> rfl

/-! ## Claim theorems -/

/-- Claim C1, counterexample.  The claim states that on a tick the monitor
first atomically claims the entry and calls notify only if that claim
removed it, so that a manual removal landing before the claim suppresses
the notification.  In the code the order is the opposite: the alert is sent
on line 339 and the entry deleted only afterwards on line 341, with no
claim step.  Concretely, for user map {"SYM": level(100)} with current
price 95 and a manual removal landing during the notify await, the
notifier HAS been invoked (notified = true), and the subsequent `del`
raises KeyError. -/
theorem tick_claims_before_notify_false :
    (tickEntryWithRemoveRace [("SYM", ⟨"SYM", 100, 0⟩)] "SYM"
      ⟨"SYM", 100, 0⟩ (fun _ => some 95) true).notified = true ∧
    (tickEntryWithRemoveRace [("SYM", ⟨"SYM", 100, 0⟩)] "SYM"
      ⟨"SYM", 100, 0⟩ (fun _ => some 95) true).keyError = true := by
  constructor <;> decide

/-- Claim C1, amended.  Once a tick has evaluated the trigger condition
true for an entry, the notifier is invoked unconditionally — before any
removal and with no atomic claim.  A manual removal landing between the
evaluation and the deletion does not prevent the notification; instead the
subsequent `del` raises KeyError (caught only at the monitoring-loop
boundary, aborting the rest of the scan).  Without such interference the
entry is deleted after the notification. -/
theorem tick_notify_precedes_removal (m : UserLevels) (sym : String)
    (lvl : TargetLevel) (lookup : String → Option Price) (cur : Price)
    (b : Bool) (hnd : keysNodup m) (hget : dictGet? m sym = some lvl)
    (hl : lookup sym = some cur) (ht : cur ≤ lvl.target_price) :
    (tickEntryWithRemoveRace m sym lvl lookup b).notified = true ∧
    (tickEntryWithRemoveRace m sym lvl lookup b).keyError = b ∧
    (b = false →
      dictGet? (tickEntryWithRemoveRace m sym lvl lookup b).finalMap sym =
        none) := by
  cases b
  · have hc : dictContains m sym = true := by
      rw [dictContains, hget]
      rfl
    have he : tickEntryWithRemoveRace m sym lvl lookup false =
        ⟨true, false, dictRemove m sym⟩ := by
      rw [tickRace_eq_hit m sym lvl lookup cur false hl ht]
      simp [hc]
    rw [he]
    exact ⟨rfl, rfl, fun _ => dictGet?_remove_self m sym hnd⟩
  · have hc : dictContains (dictRemove m sym) sym = false := by
      rw [dictContains, dictGet?_remove_self m sym hnd]
      rfl
    have he : tickEntryWithRemoveRace m sym lvl lookup true =
        ⟨true, true, dictRemove m sym⟩ := by
      rw [tickRace_eq_hit m sym lvl lookup cur true hl ht]
      simp [hc]
    rw [he]
    exact ⟨rfl, rfl, fun hcontr => by simp at hcontr⟩

theorem tick_notify_precedes_removal_witness :
    keysNodup [("SYM", (⟨"SYM", 100, 0⟩ : TargetLevel))] ∧
    ((95 : Price) ≤ 100) ∧
    (tickEntryWithRemoveRace [("SYM", ⟨"SYM", 100, 0⟩)] "SYM"
      ⟨"SYM", 100, 0⟩ (fun _ => some 95) false).notified = true ∧
    (tickEntryWithRemoveRace [("SYM", ⟨"SYM", 100, 0⟩)] "SYM"
      ⟨"SYM", 100, 0⟩ (fun _ => some 95) false).keyError = false := by
  have h := tick_notify_precedes_removal [("SYM", ⟨"SYM", 100, 0⟩)] "SYM"
    ⟨"SYM", 100, 0⟩ (fun _ => some 95) 95 false (by decide) (by decide) rfl
    (by decide)
  exact ⟨by decide, by decide, h.1, h.2.1⟩

/-- Claim C2, counterexample.  The claim states that every upsert with a
non-positive price is rejected synchronously and leaves the registry
unchanged.  The code never checks the sign of the parsed price: with an
empty registry, a valid symbol (current price 100) and the non-positive
price -5, the call succeeds (it does not even warn, since -5 < 100) and
stores a level with target price -5. -/
theorem upsert_accepts_nonpositive_price :
    (add_level_command [] 1 2 "SYM" (some (-5)) (fun _ => some 100) 0).1 =
      AddResult.added false ∧
    levelAt (add_level_command [] 1 2 "SYM" (some (-5))
      (fun _ => some 100) 0).2 1 "SYM" = some ⟨"SYM", -5, 0⟩ := by
  constructor <;> decide

/-- Claim C2, amended.  A non-numeric price (the `float` ValueError path)
is rejected synchronously, and a symbol whose price lookup fails — in
deployment this includes the empty symbol, for which the Binance query
always fails — is rejected synchronously; in both cases no level entry is
created or replaced for any (user, symbol).  A non-positive numeric price,
however, is NOT rejected: the level is stored (see the counterexample). -/
theorem upsert_validation (reg : Registry) (u : Nat) (s : String)
    (lookup : String → Option Price) (now : Nat) :
    ((add_level_command reg u 2 s none lookup now).1 =
        AddResult.invalidPrice ∧
      ∀ (v : Nat) (sym : String),
        levelAt (add_level_command reg u 2 s none lookup now).2 v sym =
          levelAt reg v sym) ∧
    (∀ p : Price, lookup (pyUpper s) = none →
      (add_level_command reg u 2 s (some p) lookup now).1 =
        AddResult.invalidSymbol ∧
      ∀ (v : Nat) (sym : String),
        levelAt (add_level_command reg u 2 s (some p) lookup now).2 v sym =
          levelAt reg v sym) := by
  constructor
  · rw [add_eq_invalidPrice reg u s lookup now]
    exact ⟨rfl, fun v sym => levelAt_ensureUser reg u v sym⟩
  · intro p hnone
    rw [add_eq_invalidSymbol reg u s p lookup now hnone]
    exact ⟨rfl, fun v sym => levelAt_ensureUser reg u v sym⟩

theorem upsert_validation_witness :
    (add_level_command [] 1 2 "SYM" none (fun _ => none) 0).1 =
      AddResult.invalidPrice ∧
    (add_level_command [] 1 2 "SYM" (some 5) (fun _ => none) 0).1 =
      AddResult.invalidSymbol ∧
    levelAt (add_level_command [] 1 2 "SYM" (some 5)
      (fun _ => none) 0).2 1 "SYM" = none := by
  refine ⟨(upsert_validation [] 1 "SYM" (fun _ => none) 0).1.1, ?_, ?_⟩
  · exact ((upsert_validation [] 1 "SYM" (fun _ => none) 0).2 5 rfl).1
  · rw [((upsert_validation [] 1 "SYM" (fun _ => none) 0).2 5 rfl).2 1 "SYM"]
    rfl

/-- Claim C3, counterexample.  The claim states that for every user,
non-empty symbol and valid price the upsert always succeeds and stores the
level.  The code first validates the symbol by querying its price (lines
140-143) and rejects the call when that lookup fails — here with the
non-empty symbol "SYM" and the valid positive price 100, nothing is
stored. -/
theorem upsert_rejects_unknown_symbol :
    (add_level_command [] 1 2 "SYM" (some 100) (fun _ => none) 0).1 =
      AddResult.invalidSymbol ∧
    "SYM" ≠ "" ∧ (0 : Price) < 100 ∧
    levelAt (add_level_command [] 1 2 "SYM" (some 100)
      (fun _ => none) 0).2 1 "SYM" = none := by
  refine ⟨by decide, by decide, by decide, by decide⟩

/-- Claim C3, amended.  For every user, numeric price and symbol whose
price lookup succeeds, the upsert succeeds and stores the level — lazily
creating the user's sub-dict when absent — and it stores unconditionally
even when the target price is at or above the current market price: in
that case it only emits the warning (`gaveWarning` is exactly the
comparison current ≤ target), never a rejection. -/
theorem upsert_success (reg : Registry) (u : Nat) (s : String) (p : Price)
    (lookup : String → Option Price) (now : Nat) (cur : Price)
    (hc : lookup (pyUpper s) = some cur) :
    ((add_level_command reg u 2 s (some p) lookup now).1).isSuccess =
      true ∧
    ((add_level_command reg u 2 s (some p) lookup now).1).gaveWarning =
      decide (cur ≤ p) ∧
    levelAt (add_level_command reg u 2 s (some p) lookup now).2 u
      (pyUpper s) = some ⟨pyUpper s, p, now⟩ ∧
    (dictGet? (add_level_command reg u 2 s (some p) lookup now).2
      u).isSome = true := by
  refine ⟨?_, ?_, add_success_levelAt reg u s p lookup now cur hc, ?_⟩
  · rw [add_eq_success reg u s p lookup now cur hc]
    cases dictGet? (userMapOf reg u) (pyUpper s) <;> rfl
  · rw [add_eq_success reg u s p lookup now cur hc]
    cases dictGet? (userMapOf reg u) (pyUpper s) <;> rfl
  · rw [add_eq_success reg u s p lookup now cur hc]
    show (dictGet? (dictSet (ensureUser reg u) u _) u).isSome = true
    rw [dictGet?_set_self]
    rfl

theorem upsert_success_witness :
    (fun _ : String => some (120 : Price)) (pyUpper "SYM") = some 120 ∧
    ((add_level_command [] 1 2 "SYM" (some 150)
      (fun _ => some 120) 0).1).isSuccess = true ∧
    ((add_level_command [] 1 2 "SYM" (some 150)
      (fun _ => some 120) 0).1).gaveWarning = true ∧
    levelAt (add_level_command [] 1 2 "SYM" (some 150)
      (fun _ => some 120) 0).2 1 "SYM" = some ⟨"SYM", 150, 0⟩ := by
  have h := upsert_success [] 1 "SYM" 150 (fun _ => some 120) 0 120 rfl
  exact ⟨rfl, h.1, h.2.1.trans (by decide), h.2.2.1⟩

/-- Claim C4.  For every entry scanned in a tick whose price lookup
succeeds: if the current price is at or below the stored target, the entry
is removed from the registry and exactly one alert is sent for it; if the
current price is strictly above the target, the entry is left untouched
(same level value, no field mutation) and no alert is sent. -/
theorem tick_trigger_semantics (reg : Registry) (u : Nat) (m : UserLevels)
    (sym : String) (lvl : TargetLevel) (lookup : String → Option Price)
    (nOk : Nat → String → Bool) (cur : Price) (hwf : RegistryWF reg)
    (hu : dictGet? reg u = some m) (hsym : dictGet? m sym = some lvl)
    (hcur : lookup sym = some cur) :
    (cur ≤ lvl.target_price →
      levelAt (check_all_levels reg lookup nOk).2 u sym = none ∧
      alertsFor (check_all_levels reg lookup nOk).1 u sym =
        [⟨u, sym, lvl.target_price, cur, nOk u sym⟩]) ∧
    (lvl.target_price < cur →
      levelAt (check_all_levels reg lookup nOk).2 u sym = some lvl ∧
      alertsFor (check_all_levels reg lookup nOk).1 u sym = []) := by
  have hmnd : keysNodup m := hwf.2 (u, m) (dictGet?_mem reg u m hu)
  have hin : (sym, lvl) ∈ m := dictGet?_mem m sym lvl hsym
  have hspec := pul_spec nOk lookup u m m sym lvl hin hmnd hmnd hsym
  have hcu := cu_spec nOk lookup reg u m hwf.1 hu
  constructor
  · intro hle
    have h2 := hspec.2.1 cur hcur hle
    constructor
    · show levelAt (checkUsers nOk lookup reg).2 u sym = none
      rw [levelAt, hcu.1]
      exact h2.1
    · show alertsFor (checkUsers nOk lookup reg).1 u sym = _
      rw [hcu.2 sym]
      exact h2.2
  · intro hlt
    have h2 := hspec.2.2 cur hcur hlt
    constructor
    · show levelAt (checkUsers nOk lookup reg).2 u sym = some lvl
      rw [levelAt, hcu.1]
      exact h2.1
    · show alertsFor (checkUsers nOk lookup reg).1 u sym = []
      rw [hcu.2 sym]
      exact h2.2

theorem tick_trigger_semantics_witness :
    RegistryWF [(1, [("SYM", (⟨"SYM", 100, 0⟩ : TargetLevel))])] ∧
    ((95 : Price) ≤ 100) ∧
    levelAt (check_all_levels [(1, [("SYM", ⟨"SYM", 100, 0⟩)])]
      (fun _ => some 95) (fun _ _ => true)).2 1 "SYM" = none ∧
    alertsFor (check_all_levels [(1, [("SYM", ⟨"SYM", 100, 0⟩)])]
      (fun _ => some 95) (fun _ _ => true)).1 1 "SYM" =
      [⟨1, "SYM", 100, 95, true⟩] := by
  have h := tick_trigger_semantics [(1, [("SYM", ⟨"SYM", 100, 0⟩)])] 1
    [("SYM", ⟨"SYM", 100, 0⟩)] "SYM" ⟨"SYM", 100, 0⟩ (fun _ => some 95)
    (fun _ _ => true) 95 (by decide) (by decide) (by decide) rfl
  have h2 := h.1 (by decide)
  exact ⟨by decide, by decide, h2.1, h2.2⟩

/-- Claim C5.  Upserting a (user, symbol) that is already present replaces
the stored level rather than adding a second entry: after two successful
upserts for the same user and symbol, the second call reports an update
carrying the first call's price, the stored level is the second call's,
and the user holds exactly one binding for that symbol. -/
theorem upsert_twice_replaces (reg : Registry) (u : Nat) (s : String)
    (p1 p2 : Price) (lookup1 lookup2 : String → Option Price) (t1 t2 : Nat)
    (c1 c2 : Price) (hwf : RegistryWF reg)
    (h1 : lookup1 (pyUpper s) = some c1)
    (h2 : lookup2 (pyUpper s) = some c2) :
    (add_level_command (add_level_command reg u 2 s (some p1) lookup1 t1).2
        u 2 s (some p2) lookup2 t2).1 =
      AddResult.updated p1 (decide (c2 ≤ p2)) ∧
    levelAt (add_level_command
        (add_level_command reg u 2 s (some p1) lookup1 t1).2
        u 2 s (some p2) lookup2 t2).2 u (pyUpper s) =
      some ⟨pyUpper s, p2, t2⟩ ∧
    countKey (userMapOf (add_level_command
        (add_level_command reg u 2 s (some p1) lookup1 t1).2
        u 2 s (some p2) lookup2 t2).2 u) (pyUpper s) = 1 := by
  have hreg1 : (add_level_command reg u 2 s (some p1) lookup1 t1).2 =
      dictSet (ensureUser reg u) u
        (dictSet (userMapOf reg u) (pyUpper s) ⟨pyUpper s, p1, t1⟩) := by
    rw [add_eq_success reg u s p1 lookup1 t1 c1 h1]
  have hm1 : userMapOf
      (add_level_command reg u 2 s (some p1) lookup1 t1).2 u =
      dictSet (userMapOf reg u) (pyUpper s) ⟨pyUpper s, p1, t1⟩ := by
    rw [hreg1, userMapOf, dictGet?_set_self]
    rfl
  have hold : dictGet? (userMapOf
      (add_level_command reg u 2 s (some p1) lookup1 t1).2 u) (pyUpper s) =
      some ⟨pyUpper s, p1, t1⟩ := by
    rw [hm1]
    exact dictGet?_set_self _ _ _
  have hm1nd : keysNodup (userMapOf
      (add_level_command reg u 2 s (some p1) lookup1 t1).2 u) := by
    rw [hm1]
    exact keysNodup_set _ _ _ (keysNodup_userMapOf reg u hwf)
  refine ⟨?_, add_success_levelAt _ u s p2 lookup2 t2 c2 h2, ?_⟩
  · rw [add_eq_success _ u s p2 lookup2 t2 c2 h2, hold]
  · rw [add_eq_success _ u s p2 lookup2 t2 c2 h2]
    show countKey ((dictGet? (dictSet _ u _) u).getD []) (pyUpper s) = 1
    rw [dictGet?_set_self]
    exact countKey_dictSet _ _ _ hm1nd

theorem upsert_twice_replaces_witness :
    RegistryWF [] ∧
    (add_level_command (add_level_command [] 1 2 "SYM" (some 100)
        (fun _ => some 120) 0).2 1 2 "SYM" (some 90)
        (fun _ => some 120) 1).1 = AddResult.updated 100 false ∧
    levelAt (add_level_command (add_level_command [] 1 2 "SYM" (some 100)
        (fun _ => some 120) 0).2 1 2 "SYM" (some 90)
        (fun _ => some 120) 1).2 1 "SYM" = some ⟨"SYM", 90, 1⟩ ∧
    countKey (userMapOf (add_level_command (add_level_command [] 1 2 "SYM"
        (some 100) (fun _ => some 120) 0).2 1 2 "SYM" (some 90)
        (fun _ => some 120) 1).2 1) "SYM" = 1 := by
  have h := upsert_twice_replaces [] 1 "SYM" 100 90 (fun _ => some 120)
    (fun _ => some 120) 0 1 120 120 (by decide) rfl rfl
  exact ⟨by decide, h.1.trans (by decide), h.2.1, h.2.2⟩

/-- Claim C6.  For a triggered entry the alert delivery outcome is
irrelevant to the registry: the entry is removed whether the Telegram send
succeeded or failed (the delivery oracle `nOk` is arbitrary, and the single
recorded alert attempt carries its outcome), and a subsequent tick — with
any price feed and delivery oracle — produces no further alert for that
entry, so a given target level never produces more than one alert. -/
theorem alert_failure_still_removes (reg : Registry) (u : Nat)
    (m : UserLevels) (sym : String) (lvl : TargetLevel)
    (lookup : String → Option Price) (nOk : Nat → String → Bool)
    (cur : Price) (hwf : RegistryWF reg) (hu : dictGet? reg u = some m)
    (hsym : dictGet? m sym = some lvl) (hcur : lookup sym = some cur)
    (ht : cur ≤ lvl.target_price) :
    levelAt (check_all_levels reg lookup nOk).2 u sym = none ∧
    alertsFor (check_all_levels reg lookup nOk).1 u sym =
      [⟨u, sym, lvl.target_price, cur, nOk u sym⟩] ∧
    ∀ (lookup2 : String → Option Price) (nOk2 : Nat → String → Bool),
      alertsFor (check_all_levels (check_all_levels reg lookup nOk).2
        lookup2 nOk2).1 u sym = [] := by
  have hmnd : keysNodup m := hwf.2 (u, m) (dictGet?_mem reg u m hu)
  have hin : (sym, lvl) ∈ m := dictGet?_mem m sym lvl hsym
  have hspec := (pul_spec nOk lookup u m m sym lvl hin hmnd hmnd
    hsym).2.1 cur hcur ht
  have hcu := cu_spec nOk lookup reg u m hwf.1 hu
  have habs : levelAt (check_all_levels reg lookup nOk).2 u sym = none := by
    show levelAt (checkUsers nOk lookup reg).2 u sym = none
    rw [levelAt, hcu.1]
    exact hspec.1
  refine ⟨habs, ?_, ?_⟩
  · show alertsFor (checkUsers nOk lookup reg).1 u sym = _
    rw [hcu.2 sym]
    exact hspec.2
  · intro lookup2 nOk2
    exact no_alert_if_absent (check_all_levels reg lookup nOk).2 lookup2
      nOk2 u sym (check_preserves_WF reg lookup nOk hwf).1 habs

theorem alert_failure_still_removes_witness :
    RegistryWF [(1, [("SYM", (⟨"SYM", 100, 0⟩ : TargetLevel))])] ∧
    ((95 : Price) ≤ 100) ∧
    levelAt (check_all_levels [(1, [("SYM", ⟨"SYM", 100, 0⟩)])]
      (fun _ => some 95) (fun _ _ => false)).2 1 "SYM" = none ∧
    alertsFor (check_all_levels [(1, [("SYM", ⟨"SYM", 100, 0⟩)])]
      (fun _ => some 95) (fun _ _ => false)).1 1 "SYM" =
      [⟨1, "SYM", 100, 95, false⟩] ∧
    alertsFor (check_all_levels (check_all_levels
      [(1, [("SYM", ⟨"SYM", 100, 0⟩)])] (fun _ => some 95)
      (fun _ _ => false)).2 (fun _ => some 95) (fun _ _ => true)).1 1
      "SYM" = [] := by
  have h := alert_failure_still_removes [(1, [("SYM", ⟨"SYM", 100, 0⟩)])]
    1 [("SYM", ⟨"SYM", 100, 0⟩)] "SYM" ⟨"SYM", 100, 0⟩ (fun _ => some 95)
    (fun _ _ => false) 95 (by decide) (by decide) (by decide) rfl
    (by decide)
  exact ⟨by decide, by decide, h.1, h.2.1,
    h.2.2 (fun _ => some 95) (fun _ _ => true)⟩

/-- Claim C7.  One iteration of the monitoring loop's body never leaves
the loop: whatever the scan outcome, the body yields a continue step — a
sleep of 60 time-units after an error escaping the scan (instead of the
normal 300 after a successful scan) — and the trace of the loop over any
infinite schedule of outcomes is total, so iteration n + 1 always runs. -/
theorem monitoring_loop_retry_policy (outcomes : Nat → Except String Unit)
    (n : Nat) :
    price_monitoring_iteration (outcomes n) ≠ LoopStep.terminated ∧
    (∀ e : String, outcomes n = .error e → monitorTrace outcomes n = 60) ∧
    (outcomes n = .ok () → monitorTrace outcomes n = 300) ∧
    monitorTrace outcomes (n + 1) = monitorWait (outcomes (n + 1)) := by
  refine ⟨?_, ?_, ?_, rfl⟩
  · cases h : outcomes n <;>
      simp [price_monitoring_iteration]
  · intro e he
    rw [monitorTrace, he]
    rfl
  · intro he
    rw [monitorTrace, he]
    rfl

theorem monitoring_loop_retry_policy_witness :
    (fun k : Nat => if k = 0 then (Except.error "boom" : Except String Unit)
      else Except.ok ()) 0 = Except.error "boom" ∧
    monitorTrace (fun k => if k = 0 then Except.error "boom"
      else Except.ok ()) 0 = 60 ∧
    monitorTrace (fun k => if k = 0 then Except.error "boom"
      else Except.ok ()) 1 = 300 ∧
    price_monitoring_iteration ((fun k : Nat => if k = 0 then
      (Except.error "boom" : Except String Unit) else Except.ok ()) 0) ≠
      LoopStep.terminated := by
  have h0 := monitoring_loop_retry_policy (fun k => if k = 0 then
    Except.error "boom" else Except.ok ()) 0
  have h1 := monitoring_loop_retry_policy (fun k => if k = 0 then
    Except.error "boom" else Except.ok ()) 1
  exact ⟨rfl, h0.2.1 "boom" rfl, h1.2.2.1 rfl, h0.1⟩

/-- Claim C8.  An entry whose price lookup is unavailable during a tick is
skipped: it survives the tick unchanged (same level value, no removal, no
field mutation) and no alert is sent for it; and it is evaluated again on
the next tick — with a price then available, that next tick removes and
alerts it exactly once when the price is at or below target, and leaves it
untouched otherwise. -/
theorem unavailable_price_skips (reg : Registry) (u : Nat) (m : UserLevels)
    (sym : String) (lvl : TargetLevel) (lookup : String → Option Price)
    (nOk : Nat → String → Bool) (hwf : RegistryWF reg)
    (hu : dictGet? reg u = some m) (hsym : dictGet? m sym = some lvl)
    (hnone : lookup sym = none) :
    levelAt (check_all_levels reg lookup nOk).2 u sym = some lvl ∧
    alertsFor (check_all_levels reg lookup nOk).1 u sym = [] ∧
    ∀ (lookup2 : String → Option Price) (nOk2 : Nat → String → Bool)
      (cur2 : Price), lookup2 sym = some cur2 →
      (cur2 ≤ lvl.target_price →
        levelAt (check_all_levels (check_all_levels reg lookup nOk).2
          lookup2 nOk2).2 u sym = none ∧
        alertsFor (check_all_levels (check_all_levels reg lookup nOk).2
          lookup2 nOk2).1 u sym =
          [⟨u, sym, lvl.target_price, cur2, nOk2 u sym⟩]) ∧
      (lvl.target_price < cur2 →
        levelAt (check_all_levels (check_all_levels reg lookup nOk).2
          lookup2 nOk2).2 u sym = some lvl ∧
        alertsFor (check_all_levels (check_all_levels reg lookup nOk).2
          lookup2 nOk2).1 u sym = []) := by
  have hmnd : keysNodup m := hwf.2 (u, m) (dictGet?_mem reg u m hu)
  have hin : (sym, lvl) ∈ m := dictGet?_mem m sym lvl hsym
  have hspec := (pul_spec nOk lookup u m m sym lvl hin hmnd hmnd
    hsym).1 hnone
  have hcu := cu_spec nOk lookup reg u m hwf.1 hu
  have hm2 : dictGet? (check_all_levels reg lookup nOk).2 u =
      some (processUserLevels nOk lookup u m m).2 := hcu.1
  have hsym2 : dictGet? (processUserLevels nOk lookup u m m).2 sym =
      some lvl := hspec.1
  have hwf2 : RegistryWF (check_all_levels reg lookup nOk).2 :=
    check_preserves_WF reg lookup nOk hwf
  refine ⟨?_, ?_, ?_⟩
  · show levelAt (checkUsers nOk lookup reg).2 u sym = some lvl
    rw [levelAt, hcu.1]
    exact hsym2
  · show alertsFor (checkUsers nOk lookup reg).1 u sym = []
    rw [hcu.2 sym]
    exact hspec.2
  · intro lookup2 nOk2 cur2 hl2
    have hmnd2 : keysNodup (processUserLevels nOk lookup u m m).2 :=
      hwf2.2 _ (dictGet?_mem _ u _ hm2)
    have hin2 : (sym, lvl) ∈ (processUserLevels nOk lookup u m m).2 :=
      dictGet?_mem _ sym lvl hsym2
    have hspec2 := pul_spec nOk2 lookup2 u
      (processUserLevels nOk lookup u m m).2
      (processUserLevels nOk lookup u m m).2 sym lvl hin2 hmnd2 hmnd2 hsym2
    have hcu2 := cu_spec nOk2 lookup2 (check_all_levels reg lookup nOk).2
      u (processUserLevels nOk lookup u m m).2 hwf2.1 hm2
    constructor
    · intro hle
      have h2 := hspec2.2.1 cur2 hl2 hle
      constructor
      · show levelAt (checkUsers nOk2 lookup2 _).2 u sym = none
        rw [levelAt, hcu2.1]
        exact h2.1
      · show alertsFor (checkUsers nOk2 lookup2 _).1 u sym = _
        rw [hcu2.2 sym]
        exact h2.2
    · intro hlt
      have h2 := hspec2.2.2 cur2 hl2 hlt
      constructor
      · show levelAt (checkUsers nOk2 lookup2 _).2 u sym = some lvl
        rw [levelAt, hcu2.1]
        exact h2.1
      · show alertsFor (checkUsers nOk2 lookup2 _).1 u sym = []
        rw [hcu2.2 sym]
        exact h2.2

theorem unavailable_price_skips_witness :
    RegistryWF [(1, [("SYM", (⟨"SYM", 100, 0⟩ : TargetLevel))])] ∧
    levelAt (check_all_levels [(1, [("SYM", ⟨"SYM", 100, 0⟩)])]
      (fun _ => none) (fun _ _ => true)).2 1 "SYM" =
      some ⟨"SYM", 100, 0⟩ ∧
    alertsFor (check_all_levels [(1, [("SYM", ⟨"SYM", 100, 0⟩)])]
      (fun _ => none) (fun _ _ => true)).1 1 "SYM" = [] ∧
    levelAt (check_all_levels (check_all_levels
      [(1, [("SYM", ⟨"SYM", 100, 0⟩)])] (fun _ => none)
      (fun _ _ => true)).2 (fun _ => some 95) (fun _ _ => true)).2 1
      "SYM" = none ∧
    alertsFor (check_all_levels (check_all_levels
      [(1, [("SYM", ⟨"SYM", 100, 0⟩)])] (fun _ => none)
      (fun _ _ => true)).2 (fun _ => some 95) (fun _ _ => true)).1 1
      "SYM" = [⟨1, "SYM", 100, 95, true⟩] := by
  have h := unavailable_price_skips [(1, [("SYM", ⟨"SYM", 100, 0⟩)])] 1
    [("SYM", ⟨"SYM", 100, 0⟩)] "SYM" ⟨"SYM", 100, 0⟩ (fun _ => none)
    (fun _ _ => true) (by decide) (by decide) (by decide) rfl
  have h2 := (h.2.2 (fun _ => some 95) (fun _ _ => true) 95 rfl).1
    (by decide)
  exact ⟨by decide, h.1, h.2.1, h2.1, h2.2⟩

/-- Claim C9.  `/list` renders the user's (symbol, level) pairs in
insertion order and the empty sequence for an unknown user: the sequence
is empty when the user is not in the registry; a successful upsert of a
symbol the user does not yet hold appends the new pair at the end of the
sequence; and a successful upsert of an already-held symbol keeps the
sequence's symbols (and hence their order) unchanged. -/
theorem list_levels_insertion_order (reg : Registry) (u : Nat) (s : String)
    (p : Price) (lookup : String → Option Price) (now : Nat) (c : Price) :
    (dictGet? reg u = none → list_levels_command reg u = []) ∧
    (lookup (pyUpper s) = some c →
      (levelAt reg u (pyUpper s) = none →
        list_levels_command
          (add_level_command reg u 2 s (some p) lookup now).2 u =
          list_levels_command reg u ++
            [(pyUpper s, ⟨pyUpper s, p, now⟩)]) ∧
      (levelAt reg u (pyUpper s) ≠ none →
        (list_levels_command
          (add_level_command reg u 2 s (some p) lookup now).2 u).map
            Prod.fst =
          (list_levels_command reg u).map Prod.fst)) := by
  have hlist : list_levels_command reg u = userMapOf reg u := rfl
  constructor
  · intro h
    rw [list_levels_command, h]
    rfl
  · intro hc
    have hlist2 : list_levels_command
        (add_level_command reg u 2 s (some p) lookup now).2 u =
        dictSet (userMapOf reg u) (pyUpper s) ⟨pyUpper s, p, now⟩ := by
      rw [add_eq_success reg u s p lookup now c hc]
      show ((dictGet? (dictSet (ensureUser reg u) u _) u).getD []) = _
      rw [dictGet?_set_self]
      rfl
    constructor
    · intro habs
      have hnot : pyUpper s ∉ (userMapOf reg u).map Prod.fst := by
        apply (dictGet?_eq_none_iff (userMapOf reg u) (pyUpper s)).mp
        rw [userMapOf_get]
        exact habs
      rw [hlist2, hlist,
        dictSet_of_not_mem (userMapOf reg u) (pyUpper s) _ hnot]
    · intro hpres
      have hmem : pyUpper s ∈ (userMapOf reg u).map Prod.fst := by
        by_contra hcon
        exact hpres (by
          rw [← userMapOf_get]
          exact (dictGet?_eq_none_iff (userMapOf reg u) (pyUpper s)).mpr
            hcon)
      rw [hlist2, hlist]
      exact mapFst_dictSet_of_mem (userMapOf reg u) (pyUpper s) _ hmem

theorem list_levels_insertion_order_witness :
    list_levels_command [] 7 = [] ∧
    list_levels_command (add_level_command [(1, [("ETH",
      (⟨"ETH", 50, 0⟩ : TargetLevel))])] 1 2 "SYM" (some 100)
      (fun _ => some 120) 3).2 1 =
      [("ETH", ⟨"ETH", 50, 0⟩), ("SYM", ⟨"SYM", 100, 3⟩)] ∧
    (list_levels_command (add_level_command [(1, [("ETH", ⟨"ETH", 50, 0⟩),
      ("SYM", ⟨"SYM", 100, 3⟩)])] 1 2 "SYM" (some 90)
      (fun _ => some 120) 4).2 1).map Prod.fst = ["ETH", "SYM"] := by
  refine ⟨(list_levels_insertion_order [] 7 "SYM" 100 (fun _ => some 120)
    0 120).1 rfl, ?_, ?_⟩
  · have h := ((list_levels_insertion_order [(1, [("ETH", ⟨"ETH", 50, 0⟩)])]
      1 "SYM" 100 (fun _ => some 120) 3 120).2 rfl).1 (by decide)
    rw [h]
    rfl
  · have h := ((list_levels_insertion_order [(1, [("ETH", ⟨"ETH", 50, 0⟩),
      ("SYM", ⟨"SYM", 100, 3⟩)])] 1 "SYM" 90 (fun _ => some 120) 4
      120).2 rfl).2 (by decide)
    rw [h]
    rfl

/-- Claim C10.  The public interface matches symbols case-insensitively by
normalizing through `upper()`: if the registry stores a level under the
uppercased form of `s` (any case variant), then `/remove` called with `s`
removes exactly that entry, and `/add` called with `s` replaces that same
entry — reporting an update with the old price and leaving a single
binding — rather than creating a second one. -/
theorem symbol_case_insensitive (reg : Registry) (u : Nat) (m : UserLevels)
    (s : String) (lvl : TargetLevel) (p : Price)
    (lookup : String → Option Price) (now : Nat) (c : Price)
    (hwf : RegistryWF reg) (hu : dictGet? reg u = some m) (hne : m ≠ [])
    (hstored : dictGet? m (pyUpper s) = some lvl) :
    (remove_level_command reg u [s]).1 = RemoveResult.removed lvl ∧
    levelAt (remove_level_command reg u [s]).2 u (pyUpper s) = none ∧
    (lookup (pyUpper s) = some c →
      (add_level_command reg u 2 s (some p) lookup now).1 =
        AddResult.updated lvl.target_price (decide (c ≤ p)) ∧
      levelAt (add_level_command reg u 2 s (some p) lookup now).2 u
        (pyUpper s) = some ⟨pyUpper s, p, now⟩ ∧
      countKey (userMapOf
        (add_level_command reg u 2 s (some p) lookup now).2 u)
        (pyUpper s) = 1) := by
  have hmnd : keysNodup m := hwf.2 (u, m) (dictGet?_mem reg u m hu)
  have hrm : remove_level_command reg u [s] =
      (RemoveResult.removed lvl,
        dictSet reg u (dictRemove m (pyUpper s))) := by
    simp [remove_level_command, hu, hne, hstored]
  have hum : userMapOf reg u = m := by
    rw [userMapOf, hu]
    rfl
  refine ⟨?_, ?_, ?_⟩
  · rw [hrm]
  · rw [hrm, levelAt]
    show (dictGet? (dictSet reg u (dictRemove m (pyUpper s))) u).bind _ =
      none
    rw [dictGet?_set_self]
    exact dictGet?_remove_self m (pyUpper s) hmnd
  · intro hc
    refine ⟨?_, add_success_levelAt reg u s p lookup now c hc, ?_⟩
    · rw [add_eq_success reg u s p lookup now c hc, hum, hstored]
    · rw [add_eq_success reg u s p lookup now c hc]
      show countKey ((dictGet? (dictSet _ u _) u).getD []) (pyUpper s) = 1
      rw [dictGet?_set_self]
      rw [hum]
      exact countKey_dictSet m (pyUpper s) _ hmnd

theorem symbol_case_insensitive_witness :
    pyUpper "btc" = "BTC" ∧
    (remove_level_command [(1, [("BTC",
      (⟨"BTC", 100, 0⟩ : TargetLevel))])] 1 ["btc"]).1 =
      RemoveResult.removed ⟨"BTC", 100, 0⟩ ∧
    levelAt (remove_level_command [(1, [("BTC", ⟨"BTC", 100, 0⟩)])] 1
      ["btc"]).2 1 "BTC" = none ∧
    (add_level_command [(1, [("BTC", ⟨"BTC", 100, 0⟩)])] 1 2 "btc"
      (some 90) (fun _ => some 120) 5).1 = AddResult.updated 100 false ∧
    countKey (userMapOf (add_level_command [(1, [("BTC",
      ⟨"BTC", 100, 0⟩)])] 1 2 "btc" (some 90)
      (fun _ => some 120) 5).2 1) "BTC" = 1 := by
  have h := symbol_case_insensitive [(1, [("BTC", ⟨"BTC", 100, 0⟩)])] 1
    [("BTC", ⟨"BTC", 100, 0⟩)] "btc" ⟨"BTC", 100, 0⟩ 90
    (fun _ => some 120) 5 120 (by decide) (by decide) (by decide)
    (by decide)
  have h2 := h.2.2 rfl
  exact ⟨by decide, h.1, h.2.1, h2.1.trans (by decide), h2.2.2⟩
